import Mathlib

/-!
Verification development for the Video-Merger merge-plan compiler.

The repository builds FFmpeg complex filter graphs from a declarative merge
request.  Two generations of the graph builder are embedded here:

* `buildFilterGraph` (the n-clip builder in the backend ffmpeg helper):
  per-clip scale/pad/trim chains, an audio policy (`keepAll`/`muteAll`/
  `keepFirst`), three join strategies (plain concat, boundary fade,
  crossfade via `xfade`/`acrossfade`), and an optional `drawtext` watermark.
* `p3Filters` (the two-clip helper that carries the shared `AUDIO_NORM`
  normalisation chain, `fps=30`, `format=yuv420p`, and `sanitizeTrim`).

Filter chains are embedded structurally: each pushed filter string becomes a
node carrying exactly the parameters interpolated into that string, and the
bracketed stream labels become the `Label` inductive.  Numeric values are
rationals; JS `parseFloat`/falsiness is made explicit (`TrimInput`, `jsOr`).
-/

namespace VideoMerger

/-- A user-supplied trim value as it arrives in the request JSON: JS
`undefined`/`null`, the empty string, a non-numeric string (for which
`parseFloat` yields `NaN`), or a numeric value. -/
inductive TrimInput where
  | absent
  | empty
  | nonNumeric
  | num (q : ℚ)
deriving DecidableEq, Repr

/-- Embedding of `sanitizeTrim` (two-clip helper): `undefined`, `null` and the
empty string map to `null`; otherwise `parseFloat`, with `NaN` mapped to
`null`.  `none` plays the role of `null`. -/
def sanitizeTrim : TrimInput → Option ℚ
  | .absent => none
  | .empty => none
  | .nonNumeric => none
  | .num q => some q

/-- Embedding of `parseFloat` with `NaN` represented as `none` (used by the
n-clip builder, which calls `parseFloat` directly). -/
def parseFloatOpt : TrimInput → Option ℚ
  | .absent => none
  | .empty => none
  | .nonNumeric => none
  | .num q => some q

/-- JS `x || d` on a possibly-`NaN`/`null` number: `null`/`NaN` and `0` are
falsy and fall through to the default. -/
def jsOr (o : Option ℚ) (d : ℚ) : ℚ :=
  match o with
  | some q => if q = 0 then d else q
  | none => d

/-- Result of resolving one clip's trim request (two-clip helper, the
`eff*Start`/`eff*End`/`needTrim*` triple computed in `mergeVideos`). -/
structure ResolvedTrim where
  start : ℚ
  endTime : ℚ
  needsTrim : Bool
deriving DecidableEq, Repr

/-- Embedding of the trim resolution in the two-clip `mergeVideos`:
`start = sanitizeTrim(s) || 0`; `end = sanitized end if non-null else the
probed duration`; `needsTrim = start > 0 || (end non-null && end < duration)`.
No clamping and no error path exist in the source. -/
def resolveTrim (duration : ℚ) (s e : TrimInput) : ResolvedTrim :=
  let effStart := jsOr (sanitizeTrim s) 0
  let tEnd := sanitizeTrim e
  let effEnd := tEnd.getD duration
  let needs := decide (0 < effStart) ||
    (match tEnd with
     | some q => decide (q < duration)
     | none => false)
  ⟨effStart, effEnd, needs⟩

/-- Probe result used by the graph builders: `{ duration, hasAudio }`. -/
structure Probe where
  duration : ℚ
  hasAudio : Bool
deriving DecidableEq, Repr

/-- The audio-normalisation parameters of the shared `AUDIO_NORM` chain
`aresample=44100,aformat=sample_fmts=fltp:channel_layouts=stereo`. -/
structure AudioNorm where
  sampleRate : ℕ
  sampleFmt : String
  channelLayout : String
deriving DecidableEq, Repr

/-- The constant `AUDIO_NORM` chain of the two-clip helper. -/
def AUDIO_NORM : AudioNorm := ⟨44100, "fltp", "stereo"⟩

/-- The quote character escaped by the watermark sanitiser. -/
def quoteChar : Char := Char.ofNat 39

/-- The backslash character inserted by the watermark sanitiser. -/
def backslashChar : Char := Char.ofNat 92

/-- The colon (FFmpeg field separator) escaped by the watermark sanitiser. -/
def colonChar : Char := Char.ofNat 58

/-- Global-regex replacement of every quote by backslash-quote
(`watermark.replace` first step). -/
def escQuote : List Char → List Char
  | [] => []
  | c :: cs => (if c = quoteChar then [backslashChar, quoteChar] else [c]) ++ escQuote cs

/-- Global-regex replacement of every colon by backslash-colon
(`watermark.replace` second step). -/
def escColon : List Char → List Char
  | [] => []
  | c :: cs => (if c = colonChar then [backslashChar, colonChar] else [c]) ++ escColon cs

/-- Embedding of `watermark.replace(quote-regex, backslash-quote)
.replace(colon-regex, backslash-colon)` producing the `safeText` embedded in
the `drawtext` filter. -/
def escapeText (s : String) : String := String.mk (escColon (escQuote s.data))

/-- A character the escaping step must neutralise. -/
def reserved (c : Char) : Bool := c = quoteChar || c = colonChar

/-- Scans a character list, with `prev` the preceding character: every
reserved character must be immediately preceded by a backslash. -/
def chkFrom (prev : Char) : List Char → Bool
  | [] => true
  | c :: cs => (!reserved c || prev = backslashChar) && chkFrom c cs

/-- No bare (unescaped) reserved character: a reserved character never
appears first and is always immediately preceded by a backslash. -/
def noBareMeta : List Char → Bool
  | [] => true
  | c :: cs => !reserved c && chkFrom c cs

/-- JS `String.prototype.trim`: drop leading and trailing whitespace (the
ASCII whitespace classes; the watermark guard only tests the result for
emptiness). -/
def jsTrim (s : String) : String :=
  String.mk (((s.data.dropWhile Char.isWhitespace).reverse.dropWhile Char.isWhitespace).reverse)

/-- Stream labels of the two-clip helper's filter graph. -/
inductive P3Label where
  | v0
  | a0
  | v1
  | a1
  | outv
  | outa
  | outv2
deriving DecidableEq, Repr

/-- Structural form of the filter strings pushed by the two-clip
`mergeVideos`.  Each constructor carries exactly the parameters interpolated
into the corresponding filter string (constant styling parameters of
`drawtext` are fixed in the source and omitted). -/
inductive P3Node where
  | videoChain (src : ℕ) (trim : Option (ℚ × ℚ)) (scaleW scaleH : ℕ)
      (fps : ℕ) (pixFmt : String) (out : P3Label)
  | audioReal (src : ℕ) (trim : Option (ℚ × ℚ)) (norm : AudioNorm) (out : P3Label)
  | audioSilence (dur : ℚ) (sampleRate : ℕ) (channelLayout : String)
      (norm : AudioNorm) (out : P3Label)
  | concat2 (inputs : List P3Label) (outV outA : P3Label)
  | drawtext2 (input : P3Label) (text : String) (out : P3Label)
deriving DecidableEq, Repr

/-- The scale/pad/fps/format parameters of a video chain node, if any. -/
def P3Node.videoFmtOf : P3Node → Option (ℕ × ℕ × ℕ × String)
  | .videoChain _ _ sw sh fps fmt _ => some (sw, sh, fps, fmt)
  | _ => none

/-- The audio-normalisation parameters an audio node ends with, if any. -/
def P3Node.audioNormOf : P3Node → Option AudioNorm
  | .audioReal _ _ nrm _ => some nrm
  | .audioSilence _ _ _ nrm _ => some nrm
  | _ => none

/-- The settings record of the two-clip `mergeVideos` (trim values come in
raw from the request; the watermark is optional). -/
structure P3Settings where
  trimStart0 : TrimInput
  trimEnd0 : TrimInput
  trimStart1 : TrimInput
  trimEnd1 : TrimInput
  watermark : Option String
deriving DecidableEq, Repr

/-- Per-clip section of the two-clip helper: the video chain (trim only when
`needTrim`, then scale/pad, `fps=30`, `format=yuv420p`) and the audio chain
(real audio, trimmed or not, or synthesised silence), every audio branch
ending in `AUDIO_NORM`. -/
def p3ClipNodes (idx : ℕ) (ts te : TrimInput) (p : Probe) (w h : ℕ)
    (vout aout : P3Label) : List P3Node :=
  let r := resolveTrim p.duration ts te
  let trimArg : Option (ℚ × ℚ) := if r.needsTrim then some (r.start, r.endTime) else none
  [P3Node.videoChain idx trimArg w h 30 "yuv420p" vout] ++
  (if p.hasAudio then
    [P3Node.audioReal idx trimArg AUDIO_NORM aout]
  else
    [P3Node.audioSilence (if r.needsTrim then r.endTime - r.start else p.duration)
      44100 "stereo" AUDIO_NORM aout])

/-- Watermark section of the two-clip helper: guarded by
`watermark && watermark.trim()`; on success pushes the `drawtext` filter
reading `[outv]` and rebinds the final video label to `outv2`. -/
def p3Overlay (wm : Option String) : List P3Node × P3Label :=
  match wm with
  | some w =>
      if jsTrim w = "" then ([], .outv)
      else ([P3Node.drawtext2 .outv (escapeText w) .outv2], .outv2)
  | none => ([], .outv)

/-- The full filter list built by the two-clip `mergeVideos`: both per-clip
sections, the `concat=n=2:v=1:a=1` node, and the optional watermark. -/
def p3Filters (st : P3Settings) (p0 p1 : Probe) (w h : ℕ) : List P3Node :=
  p3ClipNodes 0 st.trimStart0 st.trimEnd0 p0 w h .v0 .a0 ++
  p3ClipNodes 1 st.trimStart1 st.trimEnd1 p1 w h .v1 .a1 ++
  [P3Node.concat2 [.v0, .a0, .v1, .a1] .outv .outa] ++
  (p3Overlay st.watermark).1

/-- One input clip of the n-clip builder: raw trim fields together with the
probe results (`probes[i].duration`, `probes[i].hasAudio`). -/
structure Clip where
  trimStart : TrimInput
  trimEnd : TrimInput
  duration : ℚ
  hasAudio : Bool
deriving DecidableEq, Repr

/-- `parseFloat(v.trimStart) || 0` of the n-clip builder. -/
def startOf (c : Clip) : ℚ := jsOr (parseFloatOpt c.trimStart) 0

/-- `parseFloat(v.trimEnd) || probes[i].duration` of the n-clip builder. -/
def endOf (c : Clip) : ℚ := jsOr (parseFloatOpt c.trimEnd) c.duration

/-- `Math.min(end, full) - start`, the per-clip effective duration computed
in the n-clip `mergeVideos`. -/
def effectiveDuration (c : Clip) : ℚ := min (endOf c) c.duration - startOf c

/-- `effectiveDurations.reduce((a, b) => a + b, 0)`, the nominal total output
duration the n-clip `mergeVideos` uses for progress accounting. -/
def totalDuration (clips : List Clip) : ℚ := (clips.map effectiveDuration).sum

/-- The audio policy enum (`keepAll` / `muteAll` / `keepFirst`). -/
inductive AudioOption where
  | keepAll
  | muteAll
  | keepFirst
deriving DecidableEq, Repr

/-- The transition enum (`none` / `fade` / `crossfade`); `noneT` stands for
the string `none`. -/
inductive Transition where
  | noneT
  | fade
  | crossfade
deriving DecidableEq, Repr

/-- Stream labels of the n-clip builder's graph.  `rawV i` / `rawA i` are the
raw input pads `[i:v]` / `[i:a]`; the rest are the bracketed intermediate
labels the builder creates. -/
inductive Label where
  | rawV (i : ℕ)
  | rawA (i : ℕ)
  | v (i : ℕ)
  | a (i : ℕ)
  | vfin (i : ℕ)
  | afin (i : ℕ)
  | vfout (i : ℕ)
  | afout (i : ℕ)
  | xv (i : ℕ)
  | xa (i : ℕ)
  | outv
  | outa
  | watermarked
deriving DecidableEq, Repr

/-- Constructor discriminator used to separate the label families produced by
the different phases of the builder. -/
def Label.kind : Label → ℕ
  | .rawV _ => 0
  | .rawA _ => 1
  | .v _ => 2
  | .a _ => 3
  | .vfin _ => 4
  | .afin _ => 5
  | .vfout _ => 6
  | .afout _ => 7
  | .xv _ => 8
  | .xa _ => 9
  | .outv => 10
  | .outa => 11
  | .watermarked => 12

/-- Raw input pads are always available to a filter without being produced by
an earlier filter. -/
def Label.isRaw : Label → Bool
  | .rawV _ => true
  | .rawA _ => true
  | _ => false

/-- Structural form of each filter string pushed by the n-clip
`buildFilterGraph`.  Constant sub-filters that carry no varying data
(`setpts`, `setsar=1`, pad colour, `drawtext` styling) are part of the chains
the constructors stand for. -/
inductive Node where
  | videoChain (src : ℕ) (start stop : ℚ) (w h : ℕ) (out : Label)
  | atrimChain (src : ℕ) (start stop : ℚ) (out : Label)
  | silence (dur : ℚ) (out : Label)
  | vfade (input : Label) (fadeIn : Bool) (st d : ℚ) (out : Label)
  | afade (input : Label) (fadeIn : Bool) (st d : ℚ) (out : Label)
  | concat (inputs : List Label) (count : ℕ) (outV outA : Label)
  | xfade (in1 in2 : Label) (dur offset : ℚ) (out : Label)
  | acrossfade (in1 in2 : Label) (dur : ℚ) (out : Label)
  | drawtext (input : Label) (text : String) (out : Label)
deriving DecidableEq, Repr

/-- The labels a node consumes. -/
def Node.inputs : Node → List Label
  | .videoChain src _ _ _ _ _ => [.rawV src]
  | .atrimChain src _ _ _ => [.rawA src]
  | .silence _ _ => []
  | .vfade inp _ _ _ _ => [inp]
  | .afade inp _ _ _ _ => [inp]
  | .concat ins _ _ _ => ins
  | .xfade i1 i2 _ _ _ => [i1, i2]
  | .acrossfade i1 i2 _ _ => [i1, i2]
  | .drawtext inp _ _ => [inp]

/-- The labels a node produces. -/
def Node.outputs : Node → List Label
  | .videoChain _ _ _ _ _ out => [out]
  | .atrimChain _ _ _ out => [out]
  | .silence _ out => [out]
  | .vfade _ _ _ _ out => [out]
  | .afade _ _ _ _ out => [out]
  | .concat _ _ o1 o2 => [o1, o2]
  | .xfade _ _ _ _ out => [out]
  | .acrossfade _ _ _ out => [out]
  | .drawtext _ _ out => [out]

/-- Per-clip audio chain of the n-clip builder: real audio goes through
`atrim`/`asetpts` unless the audio policy (or a missing audio stream) routes
the clip to `aevalsrc` silence of the effective duration. -/
def audioNodeFor (ao : AudioOption) (i : ℕ) (c : Clip) : Node :=
  if c.hasAudio then
    if ao = .muteAll then .silence (effectiveDuration c) (.a i)
    else if ao = .keepFirst ∧ 0 < i then .silence (effectiveDuration c) (.a i)
    else .atrimChain i (startOf c) (endOf c) (.a i)
  else .silence (effectiveDuration c) (.a i)

/-- Step 1 of `buildFilterGraph` for one clip: the
trim/scale/pad/setsar video chain into `[v i]` and the audio chain into
`[a i]`. -/
def normClipNodes (ao : AudioOption) (w h : ℕ) (i : ℕ) (c : Clip) : List Node :=
  [.videoChain i (startOf c) (endOf c) w h (.v i), audioNodeFor ao i c]

/-- Step 1 of `buildFilterGraph` over the whole clip list (the `forEach` with
index). -/
def normNodes (ao : AudioOption) (w h : ℕ) : ℕ → List Clip → List Node
  | _, [] => []
  | i, c :: rest => normClipNodes ao w h i c ++ normNodes ao w h (i + 1) rest

/-- The fixed boundary-fade duration (`fadeDuration = 0.5`). -/
def fadeDuration : ℚ := 1 / 2

/-- The fixed crossfade overlap (`xfadeDuration = 1`). -/
def xfadeDuration : ℚ := 1

/-- Fade-strategy nodes for clip `i` of `n` with effective duration `dur`:
fade-in at 0 except for the first clip, fade-out starting at
`max(0, dur - fadeDuration)` except for the last, video before audio, the
fade-out reading the fade-in's output when both are present. -/
def fadeClip (n i : ℕ) (dur : ℚ) : List Node :=
  let vf0 := Label.v i
  let af0 := Label.a i
  let vf1 := if 0 < i then Label.vfin i else vf0
  let af1 := if 0 < i then Label.afin i else af0
  (if 0 < i then
    [Node.vfade vf0 true 0 fadeDuration (.vfin i),
     Node.afade af0 true 0 fadeDuration (.afin i)]
  else []) ++
  (if i < n - 1 then
    [Node.vfade vf1 false (max 0 (dur - fadeDuration)) fadeDuration (.vfout i),
     Node.afade af1 false (max 0 (dur - fadeDuration)) fadeDuration (.afout i)]
  else [])

/-- The fade-strategy `forEach` over all clips. -/
def fadeNodesRec (n : ℕ) : ℕ → List Clip → List Node
  | _, [] => []
  | i, c :: rest => fadeClip n i (effectiveDuration c) ++ fadeNodesRec n (i + 1) rest

/-- The faded video label of clip `i` after the fade `forEach` (the label the
fade-strategy concat consumes). -/
def fadedV (n i : ℕ) : Label :=
  if i < n - 1 then .vfout i else if 0 < i then .vfin i else .v i

/-- The faded audio label of clip `i` after the fade `forEach`. -/
def fadedA (n i : ℕ) : Label :=
  if i < n - 1 then .afout i else if 0 < i then .afin i else .a i

/-- The interleaved video/audio pair list consumed by the fade-strategy
concat node. -/
def fadedPairs (n : ℕ) : List Label :=
  (List.range n).flatMap fun i => [fadedV n i, fadedA n i]

/-- The interleaved `[v i][a i]` pair list consumed by the plain concat
node. -/
def plainPairs (n : ℕ) : List Label :=
  (List.range n).flatMap fun i => [Label.v i, Label.a i]

/-- The crossfade loop of `buildFilterGraph` (`for i = 1; i < n; i++`): one
`xfade` (with `offset = max(0, cumulativeOffset - xfadeDuration)`) and one
`acrossfade` per step, output labels `xv i`/`xa i` except `outv`/`outa` on the
last step; returns the nodes together with the final `cumulativeOffset`. -/
def xfadeLoop (n : ℕ) : ℕ → Label → Label → ℚ → List ℚ → List Node × ℚ
  | _, _, _, cum, [] => ([], cum)
  | i, cv, ca, cum, d :: rest =>
      let offset := max 0 (cum - xfadeDuration)
      let outV := if i = n - 1 then Label.outv else Label.xv i
      let outA := if i = n - 1 then Label.outa else Label.xa i
      let next := xfadeLoop n (i + 1) outV outA (offset + d) rest
      (Node.xfade cv (.v i) xfadeDuration offset outV ::
       Node.acrossfade ca (.a i) xfadeDuration outA :: next.1, next.2)

/-- The claim's "no offset clamps to 0" side condition, stated along the
loop: at every step the running offset stays at least the crossfade
duration. -/
def noClampFrom : ℚ → List ℚ → Bool
  | _, [] => true
  | cum, d :: rest =>
      decide (xfadeDuration ≤ cum) && noClampFrom (max 0 (cum - xfadeDuration) + d) rest

/-- Step 2 of `buildFilterGraph`: fade and crossfade apply only when `n > 1`,
otherwise a single plain concat node over all pairs (including the degenerate
`n = 0` and `n = 1` cases, which the source does not special-case). -/
def joinSection (clips : List Clip) (tr : Transition) : List Node :=
  let n := clips.length
  if tr = .fade ∧ 1 < n then
    fadeNodesRec n 0 clips ++ [Node.concat (fadedPairs n) n .outv .outa]
  else if tr = .crossfade ∧ 1 < n then
    match clips with
    | [] => []
    | c :: rest =>
        (xfadeLoop n 1 (.v 0) (.a 0) (effectiveDuration c) (rest.map effectiveDuration)).1
  else
    [Node.concat (plainPairs n) n .outv .outa]

/-- Step 3 of `buildFilterGraph`: guarded by `watermark && watermark.trim()`,
pushes a `drawtext` node reading `[outv]` and rebinds the final video label
to `[watermarked]`. -/
def overlaySection (wm : Option String) : List Node × Label :=
  match wm with
  | some w =>
      if jsTrim w = "" then ([], .outv)
      else ([Node.drawtext .outv (escapeText w) .watermarked], .watermarked)
  | none => ([], .outv)

/-- The assembled plan: the ordered node list plus the final output labels
(`filters.join(';')` and the `outputs` array of the source). -/
structure MergePlan where
  nodes : List Node
  finalVideo : Label
  finalAudio : Label
deriving DecidableEq, Repr

/-- The n-clip `buildFilterGraph`: per-clip normalisation in clip order, then
the join strategy, then the optional watermark; final labels are the overlay
output (or `outv`) and `outa`. -/
def buildFilterGraph (clips : List Clip) (w h : ℕ) (ao : AudioOption)
    (tr : Transition) (wm : Option String) : MergePlan :=
  ⟨normNodes ao w h 0 clips ++ joinSection clips tr ++ (overlaySection wm).1,
   (overlaySection wm).2, .outa⟩

/-- A consumed label is acceptable when it is a raw input pad or has already
been produced. -/
def okInput (seen : List Label) (l : Label) : Bool := l.isRaw || decide (l ∈ seen)

/-- The node sequence is a valid topological order: scanning left to right,
every input of every node is raw or already produced. -/
def wellOrderedFrom (seen : List Label) : List Node → Bool
  | [] => true
  | nd :: rest => nd.inputs.all (okInput seen) && wellOrderedFrom (seen ++ nd.outputs) rest

/-- All labels produced by a node sequence, in production order. -/
def outLabels (ns : List Node) : List Label := ns.flatMap Node.outputs

/-- A closed, self-consistent plan: topologically ordered with globally
unique produced labels. -/
def planOK (p : MergePlan) : Prop :=
  wellOrderedFrom [] p.nodes = true ∧ (outLabels p.nodes).Nodup

/-- The labels produced by the per-clip normalisation phase starting at
index `i`. -/
def vaLabels (i : ℕ) : List Clip → List Label
  | [] => []
  | _ :: rest => Label.v i :: Label.a i :: vaLabels (i + 1) rest

/-- The labels produced by the fade phase starting at index `i`. -/
def fadeLabels (n : ℕ) : ℕ → List Clip → List Label
  | _, [] => []
  | i, _ :: rest =>
      ((if 0 < i then [Label.vfin i, Label.afin i] else []) ++
       (if i < n - 1 then [Label.vfout i, Label.afout i] else [])) ++
      fadeLabels n (i + 1) rest

/-- The labels produced by the crossfade loop starting at index `i`. -/
def xLabels (n : ℕ) : ℕ → List ℚ → List Label
  | _, [] => []
  | i, _ :: rest =>
      (if i = n - 1 then Label.outv else Label.xv i) ::
      (if i = n - 1 then Label.outa else Label.xa i) :: xLabels n (i + 1) rest

/-- Join-strategy node discriminator (concat, xfade or acrossfade). -/
def isJoinNode : Node → Bool
  | .concat _ _ _ _ => true
  | .xfade _ _ _ _ _ => true
  | .acrossfade _ _ _ _ => true
  | _ => false

/-- Video-blend node discriminator. -/
def isXfadeNode : Node → Bool
  | .xfade _ _ _ _ _ => true
  | _ => false

/-- Audio-crossfade node discriminator. -/
def isAcrossfadeNode : Node → Bool
  | .acrossfade _ _ _ _ => true
  | _ => false

/-- Modelled from the spec wording of the audio policy: a clip is routed down
the silence path exactly when it has no audio stream, the policy is
`MuteAll`, or the policy is `KeepFirst` and the clip is not clip 0. -/
def specSilence (ao : AudioOption) (i : ℕ) (hasAudio : Bool) : Bool :=
  !hasAudio || decide (ao = .muteAll) || (decide (ao = .keepFirst) && decide (i ≠ 0))

/-- Fade-filter node discriminator. -/
def isFadeNode : Node → Bool
  | .vfade _ _ _ _ _ => true
  | .afade _ _ _ _ _ => true
  | _ => false

/-- Shape of every fade filter the builder emits: fixed duration
`fadeDuration`, and fade-ins always start at time 0. -/
def fadeShapeOK : Node → Prop
  | .vfade _ b st d _ => d = fadeDuration ∧ (b = true → st = 0)
  | .afade _ b st d _ => d = fadeDuration ∧ (b = true → st = 0)
  | _ => True

theorem escColon_append (l1 l2 : List Char) :
    escColon (l1 ++ l2) = escColon l1 ++ escColon l2 := by
  induction l1 with
  | nil => simp [escColon]
  | cons c cs ih => simp [escColon, ih]

theorem esc_cons (c : Char) (cs : List Char) :
    escColon (escQuote (c :: cs)) =
      (if reserved c then [backslashChar, c] else [c]) ++ escColon (escQuote cs) := by
  show escColon ((if c = quoteChar then [backslashChar, quoteChar] else [c]) ++ escQuote cs) = _
  rw [escColon_append]
  by_cases hq : c = quoteChar
  · subst hq
    simp [escColon, reserved, quoteChar, colonChar, backslashChar, Char.ofNat]
  · by_cases hc : c = colonChar
    · subst hc
      simp [escColon, reserved, quoteChar, colonChar]
    · simp [escColon, reserved, hq, hc]

theorem chkFrom_esc (cs : List Char) : ∀ prev, chkFrom prev (escColon (escQuote cs)) = true := by
  induction cs with
  | nil => intro prev; rfl
  | cons c cs ih =>
    intro prev
    rw [esc_cons]
    have hbs : reserved backslashChar = false := by decide
    cases hr : reserved c with
    | false => simp [chkFrom, hr, ih c]
    | true => simp [chkFrom, hr, hbs, ih c]

theorem noBareMeta_esc (cs : List Char) : noBareMeta (escColon (escQuote cs)) = true := by
  cases cs with
  | nil => rfl
  | cons c cs =>
    rw [esc_cons]
    have hbs : reserved backslashChar = false := by decide
    cases hr : reserved c with
    | false => simp [noBareMeta, chkFrom, hr, chkFrom_esc cs c]
    | true => simp [noBareMeta, chkFrom, hr, hbs, chkFrom_esc cs c]

theorem escQuote_id (cs : List Char) (h : ∀ c ∈ cs, reserved c = false) :
    escQuote cs = cs := by
  induction cs with
  | nil => rfl
  | cons c cs ih =>
    have hc := h c (List.mem_cons_self c cs)
    simp [reserved] at hc
    simp [escQuote, hc.1, ih fun x hx => h x (List.mem_cons_of_mem c hx)]

theorem escColon_id (cs : List Char) (h : ∀ c ∈ cs, reserved c = false) :
    escColon cs = cs := by
  induction cs with
  | nil => rfl
  | cons c cs ih =>
    have hc := h c (List.mem_cons_self c cs)
    simp [reserved] at hc
    simp [escColon, hc.2, ih fun x hx => h x (List.mem_cons_of_mem c hx)]

/-- C8 counterexample: the watermark escaping is not idempotent.  On the
one-character string consisting of a single quote, escaping once yields
backslash-quote, and escaping that again escapes the quote a second time, so
the text does not stay unchanged. -/
theorem escape_not_idempotent :
    escapeText (escapeText (String.mk [quoteChar])) ≠ escapeText (String.mk [quoteChar]) ∧
    escapeText (String.mk [quoteChar]) = String.mk [backslashChar, quoteChar] ∧
    escapeText (String.mk [backslashChar, quoteChar]) =
      String.mk [backslashChar, backslashChar, quoteChar] := by
  refine ⟨?_, rfl, rfl⟩
  decide

/-- C8 (amended): escaping always leaves every reserved character (quote or
colon) immediately preceded by a backslash — no unescaped instance survives
in the emitted text — and it is the identity (hence idempotent) exactly on
text containing no reserved character; the overlay node's text parameter is
always the escaped watermark.  It is not idempotent on text that already
contains escapes (see the counterexample). -/
theorem watermark_escape_safe (s : String) (wm : Option String) (nd : Node) :
    noBareMeta (escapeText s).data = true ∧
    ((∀ c ∈ s.data, reserved c = false) → escapeText s = s) ∧
    (nd ∈ (overlaySection wm).1 →
      ∃ w2, wm = some w2 ∧ nd = Node.drawtext .outv (escapeText w2) .watermarked) := by
  refine ⟨noBareMeta_esc s.data, ?_, ?_⟩
  · intro h
    show String.mk (escColon (escQuote s.data)) = s
    rw [escQuote_id s.data h, escColon_id s.data h]
  · intro hmem
    cases wm with
    | none => simp [overlaySection] at hmem
    | some w =>
      by_cases hw : jsTrim w = ""
      · simp [overlaySection, hw] at hmem
      · simp [overlaySection, hw] at hmem
        exact ⟨w, rfl, hmem⟩

theorem watermark_escape_safe_witness :
    Node.drawtext .outv (escapeText (String.mk [Char.ofNat 104, Char.ofNat 105]))
        .watermarked ∈ (overlaySection (some (String.mk [Char.ofNat 104, Char.ofNat 105]))).1 ∧
    ∃ w2, (some (String.mk [Char.ofNat 104, Char.ofNat 105]) = some w2 ∧
      Node.drawtext .outv (escapeText (String.mk [Char.ofNat 104, Char.ofNat 105]))
        .watermarked = Node.drawtext .outv (escapeText w2) .watermarked) :=
  ⟨by decide,
   (watermark_escape_safe (String.mk [Char.ofNat 104, Char.ofNat 105])
      (some (String.mk [Char.ofNat 104, Char.ofNat 105]))
      (Node.drawtext .outv (escapeText (String.mk [Char.ofNat 104, Char.ofNat 105]))
        .watermarked)).2.2 (by decide)⟩

/-- C2 counterexample: the trim resolver never clamps the requested end to
the probed duration and never raises any error.  With duration 10,
start `"2"`, end `"20"`, it returns end 20 (the claim requires 10); with
duration 10, start `"12"` and no end, it silently returns the degenerate
interval `[12, 10)` instead of failing. -/
theorem trim_resolver_counterexample :
    resolveTrim 10 (TrimInput.num 2) (TrimInput.num 20) = ⟨2, 20, true⟩ ∧
    (resolveTrim 10 (TrimInput.num 2) (TrimInput.num 20)).endTime ≠ 10 ∧
    resolveTrim 10 (TrimInput.num 12) TrimInput.absent = ⟨12, 10, true⟩ ∧
    (resolveTrim 10 (TrimInput.num 12) TrimInput.absent).endTime ≤
      (resolveTrim 10 (TrimInput.num 12) TrimInput.absent).start := by
  refine ⟨by decide, by decide, by decide, by decide⟩

/-- C2 (amended): the trim resolver treats missing, empty, or non-numeric
values as absent; `start` is the sanitized requested start or 0 (no clamping
at 0), `end` is the sanitized requested end when present, else the duration
(no clamping to the duration, no positivity check), `needsTrim` is
`start > 0` or `end` present and below the duration; the resolver is total —
degenerate `end <= start` intervals are returned, never rejected. -/
theorem trim_resolver_behavior (d : ℚ) (s e : TrimInput) :
    (resolveTrim d s e).start = jsOr (sanitizeTrim s) 0 ∧
    (resolveTrim d s e).endTime = (sanitizeTrim e).getD d ∧
    ((resolveTrim d s e).needsTrim = true ↔
      0 < (resolveTrim d s e).start ∨ ∃ q, sanitizeTrim e = some q ∧ q < d) ∧
    sanitizeTrim TrimInput.absent = none ∧
    sanitizeTrim TrimInput.empty = none ∧
    sanitizeTrim TrimInput.nonNumeric = none := by
  refine ⟨rfl, rfl, ?_, rfl, rfl, rfl⟩
  cases e <;> simp [resolveTrim, sanitizeTrim]

theorem p3ClipNodes_uniform (idx : ℕ) (ts te : TrimInput) (p : Probe) (w h : ℕ)
    (vo ao : P3Label) (nd : P3Node) (hmem : nd ∈ p3ClipNodes idx ts te p w h vo ao) :
    (∀ f, nd.videoFmtOf = some f → f = (w, h, 30, "yuv420p")) ∧
    (∀ a, nd.audioNormOf = some a → a = AUDIO_NORM) := by
  unfold p3ClipNodes at hmem
  by_cases hp : p.hasAudio <;>
    simp [hp] at hmem <;>
    rcases hmem with h | h <;> subst h <;>
    simp [P3Node.videoFmtOf, P3Node.audioNormOf]

theorem p3ClipNodes_counts (idx : ℕ) (ts te : TrimInput) (p : Probe) (w h : ℕ)
    (vo ao : P3Label) :
    (p3ClipNodes idx ts te p w h vo ao).countP (fun x => x.audioNormOf.isSome) = 1 ∧
    (p3ClipNodes idx ts te p w h vo ao).countP (fun x => x.videoFmtOf.isSome) = 1 := by
  by_cases hp : p.hasAudio <;>
    simp [p3ClipNodes, hp, List.countP_cons, P3Node.videoFmtOf, P3Node.audioNormOf]

theorem p3Overlay_counts (wm : Option String) :
    (p3Overlay wm).1.countP (fun x => x.audioNormOf.isSome) = 0 ∧
    (p3Overlay wm).1.countP (fun x => x.videoFmtOf.isSome) = 0 := by
  cases wm with
  | none => simp [p3Overlay]
  | some w =>
    by_cases hw : jsTrim w = "" <;>
      simp [p3Overlay, hw, P3Node.videoFmtOf, P3Node.audioNormOf]

/-- C1: in the stream-normalizer (the two-clip helper carrying the
`AUDIO_NORM` chain), every emitted per-clip video chain scales and pads to
the same canvas, forces `fps=30` and `format=yuv420p`, and every emitted
audio chain — real, trimmed, or synthesized silence — ends with the same
`AUDIO_NORM` parameters (44100 Hz, `fltp`, stereo); exactly two video and two
audio chains are emitted, one of each per clip, whatever the probes say. -/
theorem stream_normalizer_uniform (st : P3Settings) (p0 p1 : Probe) (w h : ℕ)
    (nd : P3Node) (hmem : nd ∈ p3Filters st p0 p1 w h) :
    ((∀ f, nd.videoFmtOf = some f → f = (w, h, 30, "yuv420p")) ∧
     (∀ a, nd.audioNormOf = some a → a = AUDIO_NORM)) ∧
    (p3Filters st p0 p1 w h).countP (fun x => x.audioNormOf.isSome) = 2 ∧
    (p3Filters st p0 p1 w h).countP (fun x => x.videoFmtOf.isSome) = 2 := by
  refine ⟨?_, ?_, ?_⟩
  · unfold p3Filters at hmem
    simp only [List.mem_append] at hmem
    rcases hmem with ((h0 | h1) | hc) | hov
    · exact p3ClipNodes_uniform 0 st.trimStart0 st.trimEnd0 p0 w h _ _ nd h0
    · exact p3ClipNodes_uniform 1 st.trimStart1 st.trimEnd1 p1 w h _ _ nd h1
    · simp at hc
      subst hc
      simp [P3Node.videoFmtOf, P3Node.audioNormOf]
    · cases hst : st.watermark with
      | none => rw [hst] at hov; simp [p3Overlay] at hov
      | some wtext =>
        rw [hst] at hov
        by_cases hw : jsTrim wtext = ""
        · simp [p3Overlay, hw] at hov
        · simp [p3Overlay, hw] at hov
          subst hov
          simp [P3Node.videoFmtOf, P3Node.audioNormOf]
  · unfold p3Filters
    simp only [List.countP_append]
    rw [(p3ClipNodes_counts 0 st.trimStart0 st.trimEnd0 p0 w h _ _).1,
        (p3ClipNodes_counts 1 st.trimStart1 st.trimEnd1 p1 w h _ _).1,
        (p3Overlay_counts st.watermark).1]
    simp [P3Node.audioNormOf]
  · unfold p3Filters
    simp only [List.countP_append]
    rw [(p3ClipNodes_counts 0 st.trimStart0 st.trimEnd0 p0 w h _ _).2,
        (p3ClipNodes_counts 1 st.trimStart1 st.trimEnd1 p1 w h _ _).2,
        (p3Overlay_counts st.watermark).2]
    simp [P3Node.videoFmtOf]

theorem stream_normalizer_uniform_witness :
    P3Node.audioSilence 3 44100 "stereo" AUDIO_NORM P3Label.a0 ∈
      p3Filters ⟨.absent, .absent, .absent, .absent, none⟩ ⟨3, false⟩ ⟨4, true⟩ 1280 720 ∧
    (p3Filters ⟨.absent, .absent, .absent, .absent, none⟩ ⟨3, false⟩ ⟨4, true⟩
      1280 720).countP (fun x => x.audioNormOf.isSome) = 2 :=
  ⟨by decide,
   (stream_normalizer_uniform ⟨.absent, .absent, .absent, .absent, none⟩ ⟨3, false⟩
      ⟨4, true⟩ 1280 720 (P3Node.audioSilence 3 44100 "stereo" AUDIO_NORM P3Label.a0)
      (by decide)).2.1⟩

/-- C5: the audio policy routes clip `i` down the silence path exactly when
the clip has no audio stream, the policy is `muteAll` (regardless of the
probe), or the policy is `keepFirst` and `i` is not 0; otherwise the clip
keeps its real (trimmed) audio. -/
theorem audio_policy_routing (ao : AudioOption) (w h i : ℕ) (c : Clip) :
    normClipNodes ao w h i c =
      [Node.videoChain i (startOf c) (endOf c) w h (.v i),
       if specSilence ao i c.hasAudio then Node.silence (effectiveDuration c) (.a i)
       else Node.atrimChain i (startOf c) (endOf c) (.a i)] := by
  unfold normClipNodes audioNodeFor specSilence
  cases hA : c.hasAudio <;> cases ao <;> by_cases hi : i = 0 <;>
    simp [hA, hi, Nat.pos_of_ne_zero]

/-- C4 counterexample: on a single clip the builder does not degenerate to a
pass-through — it still emits one `concat` join node (with `n=1`), and the
final video label is `outv`, not the clip's normalized label `v0`; no
empty-list rejection exists either (the builder is total). -/
theorem joiner_single_clip_counterexample :
    (buildFilterGraph [⟨.absent, .absent, 5, true⟩] 1280 720 .keepAll .noneT
      none).nodes.countP isJoinNode = 1 ∧
    (buildFilterGraph [⟨.absent, .absent, 5, true⟩] 1280 720 .keepAll .noneT
      none).finalVideo = .outv ∧
    (buildFilterGraph [⟨.absent, .absent, 5, true⟩] 1280 720 .keepAll .noneT
      none).finalVideo ≠ .v 0 := by
  refine ⟨by decide, by decide, by decide⟩

/-- C4 (amended): the builder performs no clip-count validation.  For an
empty clip list it emits a degenerate `concat` node over zero pairs instead
of raising `EmptyMergeError`; for a single clip (any transition) it emits a
`concat` join node over the single normalized pair, with final labels
`outv`/`outa` rather than the clip's own `v0`/`a0`.  (Rejection of requests
without exactly two clips happens in the calling controller, outside the
Joiner.) -/
theorem joiner_no_count_validation (w h : ℕ) (ao : AudioOption) (tr : Transition)
    (wm : Option String) (c : Clip) :
    (buildFilterGraph [] w h ao tr wm).nodes =
      Node.concat [] 0 .outv .outa :: (overlaySection wm).1 ∧
    (buildFilterGraph [c] w h ao tr wm).nodes =
      normClipNodes ao w h 0 c ++
        [Node.concat [Label.v 0, Label.a 0] 1 .outv .outa] ++ (overlaySection wm).1 ∧
    (buildFilterGraph [c] w h ao tr wm).finalVideo = (overlaySection wm).2 ∧
    (buildFilterGraph [c] w h ao tr wm).finalAudio = .outa := by
  cases tr <;>
    simp [buildFilterGraph, joinSection, normNodes, plainPairs, List.range_succ]

/-- C10: a watermark that is empty or all-whitespace (JS
`watermark && watermark.trim()` falsy) produces no overlay node: the plan is
exactly the no-watermark plan. -/
theorem whitespace_watermark_noop (clips : List Clip) (w h : ℕ) (ao : AudioOption)
    (tr : Transition) (s : String) (hs : jsTrim s = "") :
    buildFilterGraph clips w h ao tr (some s) = buildFilterGraph clips w h ao tr none := by
  simp [buildFilterGraph, overlaySection, hs]

theorem whitespace_watermark_noop_witness :
    jsTrim (String.mk [Char.ofNat 32, Char.ofNat 9]) = "" ∧
    buildFilterGraph [] 1280 720 .keepAll .noneT (some (String.mk [Char.ofNat 32, Char.ofNat 9])) =
      buildFilterGraph [] 1280 720 .keepAll .noneT none :=
  ⟨by decide,
   whitespace_watermark_noop [] 1280 720 .keepAll .noneT
     (String.mk [Char.ofNat 32, Char.ofNat 9]) (by decide)⟩

/-- C9: the Overlay Stage changes only the final video label.  The plan with
a watermark is the no-watermark plan with the overlay nodes appended (so the
whole audio path is untouched); every overlay node is a `drawtext` reading
the joined video label `outv`; the final audio label is unchanged; the final
video label is the overlay output when an overlay was emitted, else the
joined `outv` unchanged. -/
theorem overlay_stage_frame (clips : List Clip) (w h : ℕ) (ao : AudioOption)
    (tr : Transition) (wm : Option String) :
    (buildFilterGraph clips w h ao tr wm).nodes =
      (buildFilterGraph clips w h ao tr none).nodes ++ (overlaySection wm).1 ∧
    (buildFilterGraph clips w h ao tr wm).finalAudio =
      (buildFilterGraph clips w h ao tr none).finalAudio ∧
    (∀ nd ∈ (overlaySection wm).1, ∃ t, nd = Node.drawtext .outv t .watermarked) ∧
    (buildFilterGraph clips w h ao tr wm).finalVideo =
      (if (overlaySection wm).1 = [] then Label.outv else Label.watermarked) := by
  refine ⟨?_, rfl, ?_, ?_⟩
  · simp [buildFilterGraph, overlaySection]
  · intro nd hmem
    cases wm with
    | none => simp [overlaySection] at hmem
    | some s =>
      by_cases hw : jsTrim s = ""
      · simp [overlaySection, hw] at hmem
      · simp [overlaySection, hw] at hmem
        exact ⟨escapeText s, hmem⟩
  · cases wm with
    | none => simp [buildFilterGraph, overlaySection]
    | some s =>
      by_cases hw : jsTrim s = "" <;> simp [buildFilterGraph, overlaySection, hw]

theorem overlay_stage_frame_witness :
    (buildFilterGraph [] 1280 720 .keepAll .noneT (some "hi")).finalAudio =
      (buildFilterGraph [] 1280 720 .keepAll .noneT none).finalAudio ∧
    (∃ t, Node.drawtext .outv (escapeText "hi") .watermarked = Node.drawtext .outv t .watermarked) :=
  ⟨(overlay_stage_frame [] 1280 720 .keepAll .noneT (some "hi")).2.1,
   (overlay_stage_frame [] 1280 720 .keepAll .noneT (some "hi")).2.2.1
     (Node.drawtext .outv (escapeText "hi") .watermarked) (by decide)⟩

theorem xfadeLoop_counts (n : ℕ) (ds : List ℚ) : ∀ (i : ℕ) (cv ca : Label) (cum : ℚ),
    (xfadeLoop n i cv ca cum ds).1.countP isXfadeNode = ds.length ∧
    (xfadeLoop n i cv ca cum ds).1.countP isAcrossfadeNode = ds.length := by
  induction ds with
  | nil => intro i cv ca cum; simp [xfadeLoop]
  | cons d rest ih =>
    intro i cv ca cum
    simp only [xfadeLoop, List.countP_cons]
    constructor <;>
      simp [isXfadeNode, isAcrossfadeNode, (ih _ _ _ _).1, (ih _ _ _ _).2]

theorem xfadeLoop_cum (n : ℕ) (ds : List ℚ) : ∀ (i : ℕ) (cv ca : Label) (cum : ℚ),
    noClampFrom cum ds = true →
    (xfadeLoop n i cv ca cum ds).2 = cum + ds.sum - ds.length * xfadeDuration := by
  induction ds with
  | nil => intro i cv ca cum _; simp [xfadeLoop]
  | cons d rest ih =>
    intro i cv ca cum h
    simp only [noClampFrom, Bool.and_eq_true, decide_eq_true_eq] at h
    have hmax : max 0 (cum - xfadeDuration) = cum - xfadeDuration := by
      have : (0 : ℚ) ≤ cum - xfadeDuration := by linarith [h.1]
      exact max_eq_right this
    simp only [xfadeLoop]
    rw [hmax] at h ⊢
    rw [ih _ _ _ _ h.2]
    simp only [List.sum_cons, List.length_cons]
    push_cast
    ring

theorem xfadeLoop_outLabels (n : ℕ) (ds : List ℚ) : ∀ (i : ℕ) (cv ca : Label) (cum : ℚ),
    outLabels (xfadeLoop n i cv ca cum ds).1 = xLabels n i ds := by
  induction ds with
  | nil => intro i cv ca cum; rfl
  | cons d rest ih =>
    intro i cv ca cum
    have h2 := ih (i + 1) (if i = n - 1 then Label.outv else Label.xv i)
      (if i = n - 1 then Label.outa else Label.xa i) (max 0 (cum - xfadeDuration) + d)
    simp only [outLabels] at h2 ⊢
    simp [xfadeLoop, xLabels, Node.outputs, h2]

/-- C3: the crossfade Joiner is a left fold.  Each step emits exactly one
video blend (`xfade`) and one audio crossfade (`acrossfade`); the running
offset is `max(0, cumulativeOffset - xfadeDuration)` and the cumulative
offset is updated to `offset + effectiveDuration_i`, so when no offset
clamps to 0 the final nominal duration is the sum of the durations minus one
crossfade duration per step; on two clips of effective durations `[5, 4]`
with overlap 1 the join section is exactly one blend at offset 4 plus one
audio crossfade ending in `outv`/`outa`, and the nominal total is 8. -/
theorem crossfade_joiner_fold (n i : ℕ) (cv ca : Label) (cum : ℚ) (ds : List ℚ)
    (h : noClampFrom cum ds = true) :
    (xfadeLoop n i cv ca cum ds).2 = cum + ds.sum - ds.length * xfadeDuration ∧
    (xfadeLoop n i cv ca cum ds).1.countP isXfadeNode = ds.length ∧
    (xfadeLoop n i cv ca cum ds).1.countP isAcrossfadeNode = ds.length ∧
    joinSection [⟨.absent, .absent, 5, true⟩, ⟨.absent, .absent, 4, true⟩] .crossfade =
      [Node.xfade (.v 0) (.v 1) xfadeDuration 4 .outv,
       Node.acrossfade (.a 0) (.a 1) xfadeDuration .outa] ∧
    (xfadeLoop 2 1 (.v 0) (.a 0) 5 [4]).2 = 8 := by
  have e5 : effectiveDuration ⟨.absent, .absent, 5, true⟩ = 5 := by
    norm_num [effectiveDuration, startOf, endOf, jsOr, parseFloatOpt]
  have e4 : effectiveDuration ⟨.absent, .absent, 4, true⟩ = 4 := by
    norm_num [effectiveDuration, startOf, endOf, jsOr, parseFloatOpt]
  have hoff : max (0 : ℚ) (5 - xfadeDuration) = 4 := by norm_num [xfadeDuration]
  refine ⟨xfadeLoop_cum n ds i cv ca cum h, (xfadeLoop_counts n ds i cv ca cum).1,
    (xfadeLoop_counts n ds i cv ca cum).2, ?_, ?_⟩
  · simp [joinSection, e5, e4, xfadeLoop, hoff]
  · simp [xfadeLoop, hoff]
    norm_num [xfadeDuration]

theorem crossfade_joiner_fold_witness :
    noClampFrom 5 [4] = true ∧
    (xfadeLoop 2 1 (.v 0) (.a 0) 5 [(4 : ℚ)]).2 =
      5 + [(4 : ℚ)].sum - ([(4 : ℚ)].length : ℚ) * xfadeDuration :=
  ⟨by decide, (crossfade_joiner_fold 2 1 (.v 0) (.a 0) 5 [4] (by decide)).1⟩

theorem outLabels_append (xs ys : List Node) :
    outLabels (xs ++ ys) = outLabels xs ++ outLabels ys := by
  simp [outLabels]

theorem outLabels_cons (nd : Node) (ns : List Node) :
    outLabels (nd :: ns) = nd.outputs ++ outLabels ns := by
  simp [outLabels]

theorem okInput_of_mem (seen : List Label) (l : Label) (h : l ∈ seen) :
    okInput seen l = true := by
  simp [okInput, h]

theorem okInput_raw (seen : List Label) (l : Label) (h : l.isRaw = true) :
    okInput seen l = true := by
  simp [okInput, h]

theorem okInput_mono (s1 s2 : List Label) (hsub : ∀ l ∈ s1, l ∈ s2) (l : Label)
    (h : okInput s1 l = true) : okInput s2 l = true := by
  simp only [okInput, Bool.or_eq_true, decide_eq_true_eq] at h ⊢
  rcases h with h | h
  · exact Or.inl h
  · exact Or.inr (hsub l h)

theorem wellOrderedFrom_append (xs : List Node) : ∀ (seen : List Label) (ys : List Node),
    wellOrderedFrom seen (xs ++ ys) =
      (wellOrderedFrom seen xs && wellOrderedFrom (seen ++ outLabels xs) ys) := by
  induction xs with
  | nil => intro seen ys; simp [wellOrderedFrom, outLabels]
  | cons nd rest ih =>
    intro seen ys
    simp [wellOrderedFrom, ih, outLabels_cons, List.append_assoc, Bool.and_assoc]

theorem wellOrderedFrom_mono (ns : List Node) : ∀ (s1 s2 : List Label),
    (∀ l ∈ s1, l ∈ s2) → wellOrderedFrom s1 ns = true → wellOrderedFrom s2 ns = true := by
  induction ns with
  | nil => intro _ _ _ _; rfl
  | cons nd rest ih =>
    intro s1 s2 hsub h
    simp only [wellOrderedFrom, Bool.and_eq_true, List.all_eq_true] at h ⊢
    refine ⟨fun l hl => okInput_mono s1 s2 hsub l (h.1 l hl), ?_⟩
    refine ih (s1 ++ nd.outputs) (s2 ++ nd.outputs) ?_ h.2
    intro l hl
    rcases List.mem_append.mp hl with h1 | h1
    · exact List.mem_append_left _ (hsub l h1)
    · exact List.mem_append_right _ h1

theorem audioNodeFor_outputs (ao : AudioOption) (i : ℕ) (c : Clip) :
    (audioNodeFor ao i c).outputs = [Label.a i] := by
  cases hA : c.hasAudio <;> cases ao <;> by_cases hi : 0 < i <;>
    simp [audioNodeFor, hA, hi, Node.outputs]

theorem audioNodeFor_inputs (ao : AudioOption) (i : ℕ) (c : Clip) :
    (audioNodeFor ao i c).inputs = [] ∨ (audioNodeFor ao i c).inputs = [Label.rawA i] := by
  cases hA : c.hasAudio <;> cases ao <;> by_cases hi : 0 < i <;>
    simp [audioNodeFor, hA, hi, Node.inputs]

theorem normNodes_wf (ao : AudioOption) (w h : ℕ) (cs : List Clip) :
    ∀ (i : ℕ) (seen : List Label), wellOrderedFrom seen (normNodes ao w h i cs) = true := by
  induction cs with
  | nil => intro i seen; rfl
  | cons c rest ih =>
    intro i seen
    simp only [normNodes, normClipNodes, List.cons_append, List.nil_append,
      wellOrderedFrom, Bool.and_eq_true, List.all_eq_true]
    refine ⟨?_, ?_, ih (i + 1) _⟩
    · intro l hl
      simp only [Node.inputs, List.mem_singleton] at hl
      subst hl
      exact okInput_raw _ _ rfl
    · intro l hl
      rcases audioNodeFor_inputs ao i c with hx | hx <;> rw [hx] at hl
      · simp at hl
      · simp only [List.mem_singleton] at hl
        subst hl
        exact okInput_raw _ _ rfl

theorem normNodes_out (ao : AudioOption) (w h : ℕ) (cs : List Clip) :
    ∀ i, outLabels (normNodes ao w h i cs) = vaLabels i cs := by
  induction cs with
  | nil => intro i; rfl
  | cons c rest ih =>
    intro i
    have hsplit : normNodes ao w h i (c :: rest) =
        Node.videoChain i (startOf c) (endOf c) w h (.v i) :: audioNodeFor ao i c ::
          normNodes ao w h (i + 1) rest := by
      simp [normNodes, normClipNodes]
    rw [hsplit, outLabels_cons, outLabels_cons, audioNodeFor_outputs, ih (i + 1)]
    simp [Node.outputs, vaLabels]

theorem va_mem_v (j : ℕ) (cs : List Clip) :
    ∀ i, Label.v j ∈ vaLabels i cs ↔ i ≤ j ∧ j < i + cs.length := by
  induction cs with
  | nil =>
    intro i
    simp only [vaLabels, List.not_mem_nil, false_iff, List.length_nil]
    omega
  | cons c rest ih =>
    intro i
    simp only [vaLabels, List.mem_cons, List.length_cons, ih (i + 1), Label.v.injEq]
    have hva : (Label.v j = Label.a i) ↔ False := by simp
    rw [hva]
    simp only [false_or]
    omega

theorem va_mem_a (j : ℕ) (cs : List Clip) :
    ∀ i, Label.a j ∈ vaLabels i cs ↔ i ≤ j ∧ j < i + cs.length := by
  induction cs with
  | nil =>
    intro i
    simp only [vaLabels, List.not_mem_nil, false_iff, List.length_nil]
    omega
  | cons c rest ih =>
    intro i
    simp only [vaLabels, List.mem_cons, List.length_cons, ih (i + 1), Label.a.injEq]
    have hav : (Label.a j = Label.v i) ↔ False := by simp
    rw [hav]
    simp only [false_or]
    omega

theorem va_kind (cs : List Clip) : ∀ i l, l ∈ vaLabels i cs → l.kind = 2 ∨ l.kind = 3 := by
  induction cs with
  | nil => intro i l hmem; simp [vaLabels] at hmem
  | cons c rest ih =>
    intro i l hmem
    rcases List.mem_cons.mp hmem with h1 | hmem
    · subst h1; left; rfl
    · rcases List.mem_cons.mp hmem with h1 | hmem
      · subst h1; right; rfl
      · exact ih (i + 1) l hmem

theorem va_nodup (cs : List Clip) : ∀ i, (vaLabels i cs).Nodup := by
  induction cs with
  | nil => intro i; simp [vaLabels]
  | cons c rest ih =>
    intro i
    refine List.nodup_cons.mpr ⟨?_, List.nodup_cons.mpr ⟨?_, ih (i + 1)⟩⟩
    · intro hmem
      rcases List.mem_cons.mp hmem with h1 | h1
      · exact absurd h1 (by simp)
      · rw [va_mem_v i rest (i + 1)] at h1
        omega
    · intro hmem
      rw [va_mem_a i rest (i + 1)] at hmem
      omega

theorem fadeClip_outputs (n i : ℕ) (dur : ℚ) :
    outLabels (fadeClip n i dur) =
      (if 0 < i then [Label.vfin i, Label.afin i] else []) ++
      (if i < n - 1 then [Label.vfout i, Label.afout i] else []) := by
  by_cases h0 : 0 < i <;> by_cases h1 : i < n - 1 <;>
    simp [fadeClip, h0, h1, outLabels, Node.outputs]

theorem fadeNodesRec_out (n : ℕ) (cs : List Clip) :
    ∀ i, outLabels (fadeNodesRec n i cs) = fadeLabels n i cs := by
  induction cs with
  | nil => intro i; rfl
  | cons c rest ih =>
    intro i
    simp [fadeNodesRec, fadeLabels, outLabels_append, fadeClip_outputs, ih (i + 1)]

theorem fadeClip_wf (n i : ℕ) (dur : ℚ) (seen : List Label)
    (hv : Label.v i ∈ seen) (ha : Label.a i ∈ seen) :
    wellOrderedFrom seen (fadeClip n i dur) = true := by
  by_cases h0 : 0 < i <;> by_cases h1 : i < n - 1 <;>
    simp [fadeClip, h0, h1, wellOrderedFrom, okInput, Node.inputs, Node.outputs, hv, ha]

theorem fadeNodesRec_wf (n : ℕ) (cs : List Clip) :
    ∀ (i : ℕ) (seen : List Label),
      (∀ j, i ≤ j → j < i + cs.length → Label.v j ∈ seen ∧ Label.a j ∈ seen) →
      wellOrderedFrom seen (fadeNodesRec n i cs) = true := by
  induction cs with
  | nil => intro i seen _; rfl
  | cons c rest ih =>
    intro i seen hj
    have hv := (hj i (le_refl i) (by simp)).1
    have ha := (hj i (le_refl i) (by simp)).2
    have hsplit : fadeNodesRec n i (c :: rest) =
        fadeClip n i (effectiveDuration c) ++ fadeNodesRec n (i + 1) rest := by
      simp [fadeNodesRec]
    rw [hsplit, wellOrderedFrom_append]
    simp only [Bool.and_eq_true]
    refine ⟨fadeClip_wf n i (effectiveDuration c) seen hv ha, ?_⟩
    refine ih (i + 1) _ ?_
    intro j h1 h2
    have hm := hj j (by omega) (by simp only [List.length_cons]; omega)
    exact ⟨List.mem_append_left _ hm.1, List.mem_append_left _ hm.2⟩

theorem fl_mem_vfin (n j : ℕ) (cs : List Clip) :
    ∀ i, Label.vfin j ∈ fadeLabels n i cs ↔ i ≤ j ∧ j < i + cs.length ∧ 0 < j := by
  induction cs with
  | nil =>
    intro i
    simp only [fadeLabels, List.not_mem_nil, false_iff, List.length_nil]
    omega
  | cons c rest ih =>
    intro i
    by_cases h0 : 0 < i <;> by_cases h1 : i < n - 1 <;>
      simp [fadeLabels, h0, h1, ih (i + 1)] <;> omega

theorem fl_mem_afin (n j : ℕ) (cs : List Clip) :
    ∀ i, Label.afin j ∈ fadeLabels n i cs ↔ i ≤ j ∧ j < i + cs.length ∧ 0 < j := by
  induction cs with
  | nil =>
    intro i
    simp only [fadeLabels, List.not_mem_nil, false_iff, List.length_nil]
    omega
  | cons c rest ih =>
    intro i
    by_cases h0 : 0 < i <;> by_cases h1 : i < n - 1 <;>
      simp [fadeLabels, h0, h1, ih (i + 1)] <;> omega

theorem fl_mem_vfout (n j : ℕ) (cs : List Clip) :
    ∀ i, Label.vfout j ∈ fadeLabels n i cs ↔ i ≤ j ∧ j < i + cs.length ∧ j < n - 1 := by
  induction cs with
  | nil =>
    intro i
    simp only [fadeLabels, List.not_mem_nil, false_iff, List.length_nil]
    omega
  | cons c rest ih =>
    intro i
    by_cases h0 : 0 < i <;> by_cases h1 : i < n - 1 <;>
      simp [fadeLabels, h0, h1, ih (i + 1)] <;> omega

theorem fl_mem_afout (n j : ℕ) (cs : List Clip) :
    ∀ i, Label.afout j ∈ fadeLabels n i cs ↔ i ≤ j ∧ j < i + cs.length ∧ j < n - 1 := by
  induction cs with
  | nil =>
    intro i
    simp only [fadeLabels, List.not_mem_nil, false_iff, List.length_nil]
    omega
  | cons c rest ih =>
    intro i
    by_cases h0 : 0 < i <;> by_cases h1 : i < n - 1 <;>
      simp [fadeLabels, h0, h1, ih (i + 1)] <;> omega

theorem fl_kind (n : ℕ) (cs : List Clip) :
    ∀ i l, l ∈ fadeLabels n i cs →
      l.kind = 4 ∨ l.kind = 5 ∨ l.kind = 6 ∨ l.kind = 7 := by
  induction cs with
  | nil => intro i l hmem; simp [fadeLabels] at hmem
  | cons c rest ih =>
    intro i l hmem
    simp only [fadeLabels, List.mem_append] at hmem
    rcases hmem with (hm1 | hm1) | hm
    · by_cases h0 : 0 < i
      · simp only [h0, if_true, List.mem_cons, List.mem_singleton,
          List.not_mem_nil, or_false] at hm1
        rcases hm1 with h2 | h2 <;> subst h2 <;> simp [Label.kind]
      · simp [h0] at hm1
    · by_cases h1 : i < n - 1
      · simp only [h1, if_true, List.mem_cons, List.mem_singleton,
          List.not_mem_nil, or_false] at hm1
        rcases hm1 with h2 | h2 <;> subst h2 <;> simp [Label.kind]
      · simp [h1] at hm1
    · exact ih (i + 1) l hm

theorem fl_nodup (n : ℕ) (cs : List Clip) : ∀ i, (fadeLabels n i cs).Nodup := by
  induction cs with
  | nil => intro i; simp [fadeLabels]
  | cons c rest ih =>
    intro i
    have hblock : ((if 0 < i then [Label.vfin i, Label.afin i] else []) ++
        (if i < n - 1 then [Label.vfout i, Label.afout i] else [])).Nodup := by
      by_cases h0 : 0 < i <;> by_cases h1 : i < n - 1 <;> simp [h0, h1]
    have hdisj : ∀ l ∈ ((if 0 < i then [Label.vfin i, Label.afin i] else []) ++
        (if i < n - 1 then [Label.vfout i, Label.afout i] else [])),
        l ∉ fadeLabels n (i + 1) rest := by
      intro l hl hl2
      rcases List.mem_append.mp hl with hm | hm
      · by_cases h0 : 0 < i
        · simp only [h0, if_true, List.mem_cons, List.mem_singleton,
            List.not_mem_nil, or_false] at hm
          rcases hm with h2 | h2 <;> subst h2
          · rw [fl_mem_vfin n i rest (i + 1)] at hl2; omega
          · rw [fl_mem_afin n i rest (i + 1)] at hl2; omega
        · simp [h0] at hm
      · by_cases h1 : i < n - 1
        · simp only [h1, if_true, List.mem_cons, List.mem_singleton,
            List.not_mem_nil, or_false] at hm
          rcases hm with h2 | h2 <;> subst h2
          · rw [fl_mem_vfout n i rest (i + 1)] at hl2; omega
          · rw [fl_mem_afout n i rest (i + 1)] at hl2; omega
        · simp [h1] at hm
    have hfl : fadeLabels n i (c :: rest) =
        ((if 0 < i then [Label.vfin i, Label.afin i] else []) ++
         (if i < n - 1 then [Label.vfout i, Label.afout i] else [])) ++
        fadeLabels n (i + 1) rest := by
      simp [fadeLabels]
    rw [hfl]
    exact List.Nodup.append hblock (ih (i + 1)) hdisj

theorem xl_mem_xv (n j : ℕ) (ds : List ℚ) :
    ∀ i, Label.xv j ∈ xLabels n i ds ↔ i ≤ j ∧ j < i + ds.length ∧ j ≠ n - 1 := by
  induction ds with
  | nil =>
    intro i
    simp only [xLabels, List.not_mem_nil, false_iff, List.length_nil]
    omega
  | cons d rest ih =>
    intro i
    by_cases hi : i = n - 1 <;> simp [xLabels, hi, ih] <;> omega

theorem xl_mem_xa (n j : ℕ) (ds : List ℚ) :
    ∀ i, Label.xa j ∈ xLabels n i ds ↔ i ≤ j ∧ j < i + ds.length ∧ j ≠ n - 1 := by
  induction ds with
  | nil =>
    intro i
    simp only [xLabels, List.not_mem_nil, false_iff, List.length_nil]
    omega
  | cons d rest ih =>
    intro i
    by_cases hi : i = n - 1 <;> simp [xLabels, hi, ih] <;> omega

theorem xl_mem_outv (n : ℕ) (ds : List ℚ) :
    ∀ i, Label.outv ∈ xLabels n i ds ↔ i ≤ n - 1 ∧ n - 1 < i + ds.length := by
  induction ds with
  | nil =>
    intro i
    simp only [xLabels, List.not_mem_nil, false_iff, List.length_nil]
    omega
  | cons d rest ih =>
    intro i
    by_cases hi : i = n - 1 <;> simp [xLabels, hi, ih] <;> omega

theorem xl_mem_outa (n : ℕ) (ds : List ℚ) :
    ∀ i, Label.outa ∈ xLabels n i ds ↔ i ≤ n - 1 ∧ n - 1 < i + ds.length := by
  induction ds with
  | nil =>
    intro i
    simp only [xLabels, List.not_mem_nil, false_iff, List.length_nil]
    omega
  | cons d rest ih =>
    intro i
    by_cases hi : i = n - 1 <;> simp [xLabels, hi, ih] <;> omega

theorem xl_kind (n : ℕ) (ds : List ℚ) :
    ∀ i l, l ∈ xLabels n i ds →
      l.kind = 8 ∨ l.kind = 9 ∨ l.kind = 10 ∨ l.kind = 11 := by
  induction ds with
  | nil => intro i l hmem; simp [xLabels] at hmem
  | cons d rest ih =>
    intro i l hmem
    rcases List.mem_cons.mp hmem with h1 | hmem
    · by_cases hi : i = n - 1 <;> simp [hi] at h1 <;> subst h1 <;> simp [Label.kind]
    · rcases List.mem_cons.mp hmem with h1 | hmem
      · by_cases hi : i = n - 1 <;> simp [hi] at h1 <;> subst h1 <;> simp [Label.kind]
      · exact ih (i + 1) l hmem

theorem xl_nodup (n : ℕ) (ds : List ℚ) : ∀ i, (xLabels n i ds).Nodup := by
  induction ds with
  | nil => intro i; simp [xLabels]
  | cons d rest ih =>
    intro i
    have hx : xLabels n i (d :: rest) =
        (if i = n - 1 then Label.outv else Label.xv i) ::
        (if i = n - 1 then Label.outa else Label.xa i) :: xLabels n (i + 1) rest := by
      simp [xLabels]
    have h1tail : (if i = n - 1 then Label.outv else Label.xv i) ∉
        xLabels n (i + 1) rest := by
      by_cases hi : i = n - 1
      · rw [if_pos hi, xl_mem_outv n rest (i + 1)]
        omega
      · rw [if_neg hi, xl_mem_xv n i rest (i + 1)]
        omega
    have h2tail : (if i = n - 1 then Label.outa else Label.xa i) ∉
        xLabels n (i + 1) rest := by
      by_cases hi : i = n - 1
      · rw [if_pos hi, xl_mem_outa n rest (i + 1)]
        omega
      · rw [if_neg hi, xl_mem_xa n i rest (i + 1)]
        omega
    have h12 : (if i = n - 1 then Label.outv else Label.xv i) ≠
        (if i = n - 1 then Label.outa else Label.xa i) := by
      by_cases hi : i = n - 1 <;> simp [hi]
    rw [hx]
    refine List.nodup_cons.mpr ⟨?_, List.nodup_cons.mpr ⟨h2tail, ih (i + 1)⟩⟩
    intro hmem
    rcases List.mem_cons.mp hmem with h1 | h1
    · exact h12 h1
    · exact h1tail h1

theorem xfadeLoop_wf (n : ℕ) (ds : List ℚ) :
    ∀ (i : ℕ) (cv ca : Label) (cum : ℚ) (seen : List Label),
      cv ∈ seen → ca ∈ seen →
      (∀ j, i ≤ j → j < i + ds.length → Label.v j ∈ seen ∧ Label.a j ∈ seen) →
      wellOrderedFrom seen (xfadeLoop n i cv ca cum ds).1 = true := by
  induction ds with
  | nil => intro i cv ca cum seen _ _ _; rfl
  | cons d rest ih =>
    intro i cv ca cum seen hcv hca hj
    have hv := (hj i (le_refl i) (by simp)).1
    have ha := (hj i (le_refl i) (by simp)).2
    simp only [xfadeLoop, wellOrderedFrom, Bool.and_eq_true, List.all_eq_true,
      Node.inputs, Node.outputs]
    refine ⟨?_, ?_, ?_⟩
    · intro l hl
      rcases List.mem_cons.mp hl with h1 | h1
      · subst h1; exact okInput_of_mem _ _ hcv
      · simp only [List.mem_singleton] at h1
        subst h1
        exact okInput_of_mem _ _ hv
    · intro l hl
      rcases List.mem_cons.mp hl with h1 | h1
      · subst h1; exact okInput_of_mem _ _ (List.mem_append_left _ hca)
      · simp only [List.mem_singleton] at h1
        subst h1
        exact okInput_of_mem _ _ (List.mem_append_left _ ha)
    · refine ih (i + 1) _ _ (max 0 (cum - xfadeDuration) + d) _ ?_ ?_ ?_
      · exact List.mem_append_left _ (List.mem_append_right _ (by simp))
      · exact List.mem_append_right _ (by simp)
      · intro j hj1 hj2
        have hm := hj j (by omega) (by simp only [List.length_cons]; omega)
        exact ⟨List.mem_append_left _ (List.mem_append_left _ hm.1),
          List.mem_append_left _ (List.mem_append_left _ hm.2)⟩

theorem plainPairs_mem (n : ℕ) (l : Label) (hmem : l ∈ plainPairs n) :
    ∃ k, k < n ∧ (l = Label.v k ∨ l = Label.a k) := by
  simp only [plainPairs, List.mem_flatMap, List.mem_range] at hmem
  obtain ⟨k, hk, hl⟩ := hmem
  rcases List.mem_cons.mp hl with h1 | h1
  · exact ⟨k, hk, Or.inl h1⟩
  · simp only [List.mem_singleton] at h1
    exact ⟨k, hk, Or.inr h1⟩

theorem fadedPairs_mem (n : ℕ) (l : Label) (hmem : l ∈ fadedPairs n) :
    ∃ k, k < n ∧ (l = fadedV n k ∨ l = fadedA n k) := by
  simp only [fadedPairs, List.mem_flatMap, List.mem_range] at hmem
  obtain ⟨k, hk, hl⟩ := hmem
  rcases List.mem_cons.mp hl with h1 | h1
  · exact ⟨k, hk, Or.inl h1⟩
  · simp only [List.mem_singleton] at h1
    exact ⟨k, hk, Or.inr h1⟩

theorem joinSection_cases (clips : List Clip) (tr : Transition) :
    (tr = .fade ∧ 1 < clips.length ∧ joinSection clips tr =
        fadeNodesRec clips.length 0 clips ++
          [Node.concat (fadedPairs clips.length) clips.length .outv .outa]) ∨
    (tr = .crossfade ∧ 1 < clips.length ∧ ∃ c rest, clips = c :: rest ∧
        joinSection clips tr = (xfadeLoop clips.length 1 (.v 0) (.a 0)
          (effectiveDuration c) (rest.map effectiveDuration)).1) ∨
    (joinSection clips tr =
        [Node.concat (plainPairs clips.length) clips.length .outv .outa]) := by
  by_cases h1 : tr = .fade ∧ 1 < clips.length
  · left
    exact ⟨h1.1, h1.2, by simp only [joinSection, if_pos h1]⟩
  · by_cases h2 : tr = .crossfade ∧ 1 < clips.length
    · right; left
      obtain ⟨c, rest, rfl⟩ : ∃ c rest, clips = c :: rest := by
        cases clips with
        | nil => exact absurd h2.2 (by simp)
        | cons c rest => exact ⟨c, rest, rfl⟩
      exact ⟨h2.1, h2.2, c, rest, rfl, by simp only [joinSection, if_neg h1, if_pos h2]⟩
    · right; right
      simp only [joinSection, if_neg h1, if_neg h2]

theorem concat_outLabels (ins : List Label) (k : ℕ) :
    outLabels [Node.concat ins k .outv .outa] = [Label.outv, Label.outa] := by
  simp [outLabels, Node.outputs]

theorem overlay_outLabels (wm : Option String) :
    outLabels (overlaySection wm).1 = [] ∨
    outLabels (overlaySection wm).1 = [Label.watermarked] := by
  cases wm with
  | none => left; rfl
  | some w =>
    by_cases hw : jsTrim w = ""
    · left; simp [overlaySection, hw, outLabels]
    · right; simp [overlaySection, hw, outLabels, Node.outputs]

theorem overlay_wf (wm : Option String) (s : List Label) (hs : Label.outv ∈ s) :
    wellOrderedFrom s (overlaySection wm).1 = true := by
  cases wm with
  | none => rfl
  | some w =>
    by_cases hw : jsTrim w = ""
    · simp [overlaySection, hw, wellOrderedFrom]
    · simp [overlaySection, hw, wellOrderedFrom, Node.inputs, okInput, hs]

theorem planOK_of_parts (clips : List Clip) (w h : ℕ) (ao : AudioOption)
    (tr : Transition) (wm : Option String)
    (hwf : wellOrderedFrom (vaLabels 0 clips) (joinSection clips tr) = true)
    (houtv : Label.outv ∈ outLabels (joinSection clips tr))
    (hkind : ∀ l ∈ outLabels (joinSection clips tr), 4 ≤ l.kind ∧ l.kind ≤ 11)
    (hnd : (outLabels (joinSection clips tr)).Nodup) :
    planOK (buildFilterGraph clips w h ao tr wm) := by
  constructor
  · show wellOrderedFrom [] ((normNodes ao w h 0 clips ++ joinSection clips tr) ++
      (overlaySection wm).1) = true
    rw [wellOrderedFrom_append]
    simp only [Bool.and_eq_true]
    constructor
    · rw [wellOrderedFrom_append]
      simp only [Bool.and_eq_true]
      refine ⟨normNodes_wf ao w h clips 0 [], ?_⟩
      rw [List.nil_append, normNodes_out ao w h clips 0]
      exact hwf
    · refine overlay_wf wm _ ?_
      rw [List.nil_append, outLabels_append, normNodes_out ao w h clips 0]
      exact List.mem_append_right _ houtv
  · show (outLabels ((normNodes ao w h 0 clips ++ joinSection clips tr) ++
      (overlaySection wm).1)).Nodup
    rw [outLabels_append, outLabels_append, normNodes_out ao w h clips 0,
      List.append_assoc]
    have hvak : ∀ l ∈ vaLabels 0 clips, l.kind = 2 ∨ l.kind = 3 := va_kind clips 0
    have hovnd : (outLabels (overlaySection wm).1).Nodup := by
      rcases overlay_outLabels wm with hov | hov <;> simp [hov]
    have hovk : ∀ l ∈ outLabels (overlaySection wm).1, l.kind = 12 := by
      rcases overlay_outLabels wm with hov | hov <;> simp [hov, Label.kind]
    refine List.Nodup.append (va_nodup clips 0) (List.Nodup.append hnd hovnd ?_) ?_
    · intro l hl hl2
      have h1 := (hkind l hl).2
      have h2 := hovk l hl2
      omega
    · intro l hl hl2
      have h1 := hvak l hl
      rcases List.mem_append.mp hl2 with h2 | h2
      · have h3 := (hkind l h2).1
        omega
      · have h3 := hovk l h2
        omega

/-- C7: for every input, the assembled plan is a closed, self-consistent
program: scanning the emitted node sequence left to right, every label a
node consumes is a raw input pad or a label produced by an earlier node, and
all produced labels are globally unique. -/
theorem plan_topological (clips : List Clip) (w h : ℕ) (ao : AudioOption)
    (tr : Transition) (wm : Option String) :
    planOK (buildFilterGraph clips w h ao tr wm) := by
  have hva : ∀ j, j < clips.length →
      Label.v j ∈ vaLabels 0 clips ∧ Label.a j ∈ vaLabels 0 clips := by
    intro j hj
    exact ⟨(va_mem_v j clips 0).mpr (by omega), (va_mem_a j clips 0).mpr (by omega)⟩
  rcases joinSection_cases clips tr with ⟨htr, hn, heq⟩ | ⟨htr, hn, c, rest, hcl, heq⟩ | heq
  · -- fade strategy
    refine planOK_of_parts clips w h ao tr wm ?_ ?_ ?_ ?_
    · rw [heq, wellOrderedFrom_append]
      simp only [Bool.and_eq_true]
      refine ⟨fadeNodesRec_wf clips.length clips 0 (vaLabels 0 clips)
        (fun j _ hj2 => hva j (by omega)), ?_⟩
      simp only [wellOrderedFrom, Bool.and_eq_true, List.all_eq_true, Node.inputs]
      refine ⟨?_, trivial⟩
      intro l hl
      obtain ⟨k, hk, hlk⟩ := fadedPairs_mem clips.length l hl
      have hmem : l ∈ fadeLabels clips.length 0 clips := by
        rcases hlk with h1 | h1 <;> subst h1
        · by_cases hk1 : k < clips.length - 1
          · simp only [fadedV, if_pos hk1]
            exact (fl_mem_vfout clips.length k clips 0).mpr (by omega)
          · have h0k : 0 < k := by omega
            simp only [fadedV, if_neg hk1, if_pos h0k]
            exact (fl_mem_vfin clips.length k clips 0).mpr (by omega)
        · by_cases hk1 : k < clips.length - 1
          · simp only [fadedA, if_pos hk1]
            exact (fl_mem_afout clips.length k clips 0).mpr (by omega)
          · have h0k : 0 < k := by omega
            simp only [fadedA, if_neg hk1, if_pos h0k]
            exact (fl_mem_afin clips.length k clips 0).mpr (by omega)
      refine okInput_of_mem _ _ ?_
      rw [fadeNodesRec_out clips.length clips 0]
      exact List.mem_append_right _ hmem
    · rw [heq, outLabels_append, fadeNodesRec_out clips.length clips 0,
        concat_outLabels]
      exact List.mem_append_right _ (by simp)
    · intro l hl
      rw [heq, outLabels_append, fadeNodesRec_out clips.length clips 0,
        concat_outLabels] at hl
      rcases List.mem_append.mp hl with h1 | h1
      · have := fl_kind clips.length clips 0 l h1
        omega
      · rcases List.mem_cons.mp h1 with h2 | h2
        · subst h2; simp [Label.kind]
        · simp only [List.mem_singleton] at h2
          subst h2; simp [Label.kind]
    · rw [heq, outLabels_append, fadeNodesRec_out clips.length clips 0,
        concat_outLabels]
      refine List.Nodup.append (fl_nodup clips.length clips 0) (by simp) ?_
      intro l hl hl2
      have h1 := fl_kind clips.length clips 0 l hl
      rcases List.mem_cons.mp hl2 with h2 | h2
      · subst h2; simp [Label.kind] at h1
      · simp only [List.mem_singleton] at h2
        subst h2; simp [Label.kind] at h1
  · -- crossfade strategy
    subst hcl
    have hlen : (rest.map effectiveDuration).length = rest.length := List.length_map _ _
    refine planOK_of_parts _ w h ao tr wm ?_ ?_ ?_ ?_
    · rw [heq]
      refine xfadeLoop_wf (c :: rest).length (rest.map effectiveDuration) 1
        (.v 0) (.a 0) (effectiveDuration c) (vaLabels 0 (c :: rest))
        (hva 0 (by simp)).1 (hva 0 (by simp)).2 ?_
      intro j hj1 hj2
      rw [hlen] at hj2
      exact hva j (by simp only [List.length_cons]; omega)
    · rw [heq, xfadeLoop_outLabels]
      refine (xl_mem_outv (c :: rest).length (rest.map effectiveDuration) 1).mpr ?_
      rw [hlen]
      simp only [List.length_cons] at hn ⊢
      omega
    · intro l hl
      rw [heq, xfadeLoop_outLabels] at hl
      have := xl_kind (c :: rest).length (rest.map effectiveDuration) 1 l hl
      omega
    · rw [heq, xfadeLoop_outLabels]
      exact xl_nodup (c :: rest).length (rest.map effectiveDuration) 1
  · -- plain concat
    refine planOK_of_parts clips w h ao tr wm ?_ ?_ ?_ ?_
    · rw [heq]
      simp only [wellOrderedFrom, Bool.and_eq_true, List.all_eq_true, Node.inputs]
      refine ⟨?_, trivial⟩
      intro l hl
      obtain ⟨k, hk, hlk⟩ := plainPairs_mem clips.length l hl
      refine okInput_of_mem _ _ ?_
      rcases hlk with h1 | h1 <;> subst h1
      · exact (hva k hk).1
      · exact (hva k hk).2
    · rw [heq, concat_outLabels]
      simp
    · intro l hl
      rw [heq, concat_outLabels] at hl
      rcases List.mem_cons.mp hl with h2 | h2
      · subst h2; simp [Label.kind]
      · simp only [List.mem_singleton] at h2
        subst h2; simp [Label.kind]
    · rw [heq, concat_outLabels]
      simp

theorem vfadeIn_mem_block (n i j : ℕ) (dur : ℚ) (inp : Label) (st d : ℚ) :
    Node.vfade inp true st d (Label.vfin j) ∈ fadeClip n i dur ↔
      (0 < i ∧ j = i ∧ inp = Label.v i ∧ st = 0 ∧ d = fadeDuration) := by
  by_cases h0 : 0 < i <;> by_cases h1 : i < n - 1 <;>
    simp [fadeClip, h0, h1] <;> tauto

theorem afadeIn_mem_block (n i j : ℕ) (dur : ℚ) (inp : Label) (st d : ℚ) :
    Node.afade inp true st d (Label.afin j) ∈ fadeClip n i dur ↔
      (0 < i ∧ j = i ∧ inp = Label.a i ∧ st = 0 ∧ d = fadeDuration) := by
  by_cases h0 : 0 < i <;> by_cases h1 : i < n - 1 <;>
    simp [fadeClip, h0, h1] <;> tauto

theorem vfadeOut_mem_block (n i j : ℕ) (dur : ℚ) (inp : Label) (st d : ℚ) :
    Node.vfade inp false st d (Label.vfout j) ∈ fadeClip n i dur ↔
      (i < n - 1 ∧ j = i ∧ st = max 0 (dur - fadeDuration) ∧ d = fadeDuration ∧
        inp = (if 0 < i then Label.vfin i else Label.v i)) := by
  by_cases h0 : 0 < i <;> by_cases h1 : i < n - 1 <;>
    simp [fadeClip, h0, h1] <;> tauto

theorem afadeOut_mem_block (n i j : ℕ) (dur : ℚ) (inp : Label) (st d : ℚ) :
    Node.afade inp false st d (Label.afout j) ∈ fadeClip n i dur ↔
      (i < n - 1 ∧ j = i ∧ st = max 0 (dur - fadeDuration) ∧ d = fadeDuration ∧
        inp = (if 0 < i then Label.afin i else Label.a i)) := by
  by_cases h0 : 0 < i <;> by_cases h1 : i < n - 1 <;>
    simp [fadeClip, h0, h1] <;> tauto

theorem fadeNodesRec_split (n i : ℕ) (c : Clip) (rest : List Clip) :
    fadeNodesRec n i (c :: rest) =
      fadeClip n i (effectiveDuration c) ++ fadeNodesRec n (i + 1) rest := by
  simp [fadeNodesRec]

theorem vfadeIn_mem_rec (n j : ℕ) (inp : Label) (st d : ℚ) (cs : List Clip) : ∀ i,
    Node.vfade inp true st d (Label.vfin j) ∈ fadeNodesRec n i cs ↔
      (0 < j ∧ i ≤ j ∧ j < i + cs.length ∧ inp = Label.v j ∧ st = 0 ∧
        d = fadeDuration) := by
  induction cs with
  | nil =>
    intro i
    simp only [fadeNodesRec, List.not_mem_nil, false_iff, List.length_nil]
    rintro ⟨_, h2, h3, _⟩
    omega
  | cons c rest ih =>
    intro i
    rw [fadeNodesRec_split, List.mem_append, vfadeIn_mem_block, ih (i + 1)]
    simp only [List.length_cons]
    constructor
    · rintro (⟨h0, rfl, rfl, rfl, rfl⟩ | ⟨h1, h2, h3, h4, h5, h6⟩)
      · exact ⟨h0, le_refl _, by omega, rfl, rfl, rfl⟩
      · exact ⟨h1, by omega, by omega, h4, h5, h6⟩
    · rintro ⟨h1, h2, h3, rfl, rfl, rfl⟩
      by_cases hji : j = i
      · subst hji
        exact Or.inl ⟨h1, rfl, rfl, rfl, rfl⟩
      · exact Or.inr ⟨h1, by omega, by omega, rfl, rfl, rfl⟩

theorem afadeIn_mem_rec (n j : ℕ) (inp : Label) (st d : ℚ) (cs : List Clip) : ∀ i,
    Node.afade inp true st d (Label.afin j) ∈ fadeNodesRec n i cs ↔
      (0 < j ∧ i ≤ j ∧ j < i + cs.length ∧ inp = Label.a j ∧ st = 0 ∧
        d = fadeDuration) := by
  induction cs with
  | nil =>
    intro i
    simp only [fadeNodesRec, List.not_mem_nil, false_iff, List.length_nil]
    rintro ⟨_, h2, h3, _⟩
    omega
  | cons c rest ih =>
    intro i
    rw [fadeNodesRec_split, List.mem_append, afadeIn_mem_block, ih (i + 1)]
    simp only [List.length_cons]
    constructor
    · rintro (⟨h0, rfl, rfl, rfl, rfl⟩ | ⟨h1, h2, h3, h4, h5, h6⟩)
      · exact ⟨h0, le_refl _, by omega, rfl, rfl, rfl⟩
      · exact ⟨h1, by omega, by omega, h4, h5, h6⟩
    · rintro ⟨h1, h2, h3, rfl, rfl, rfl⟩
      by_cases hji : j = i
      · subst hji
        exact Or.inl ⟨h1, rfl, rfl, rfl, rfl⟩
      · exact Or.inr ⟨h1, by omega, by omega, rfl, rfl, rfl⟩

theorem vfadeOut_mem_rec (n j : ℕ) (inp : Label) (st d : ℚ) (cs : List Clip) : ∀ i,
    Node.vfade inp false st d (Label.vfout j) ∈ fadeNodesRec n i cs ↔
      (i ≤ j ∧ j < i + cs.length ∧ j < n - 1 ∧
        st = max 0 ((cs.map effectiveDuration).getD (j - i) 0 - fadeDuration) ∧
        d = fadeDuration ∧
        inp = (if 0 < j then Label.vfin j else Label.v j)) := by
  induction cs with
  | nil =>
    intro i
    simp only [fadeNodesRec, List.not_mem_nil, false_iff, List.length_nil]
    rintro ⟨h1, h2, _⟩
    omega
  | cons c rest ih =>
    intro i
    rw [fadeNodesRec_split, List.mem_append, vfadeOut_mem_block, ih (i + 1)]
    simp only [List.length_cons]
    constructor
    · rintro (⟨h1, rfl, rfl, rfl, rfl⟩ | ⟨h1, h2, h3, h4, h5, h6⟩)
      · refine ⟨le_refl _, by omega, h1, ?_, rfl, rfl⟩
        simp [List.getD_cons_zero]
      · refine ⟨by omega, by omega, h3, ?_, h5, h6⟩
        have hsub : j - i = (j - (i + 1)) + 1 := by omega
        rw [List.map_cons, hsub, List.getD_cons_succ]
        exact h4
    · rintro ⟨h1, h2, h3, h4, rfl, rfl⟩
      by_cases hji : j = i
      · subst hji
        refine Or.inl ⟨h3, rfl, ?_, rfl, rfl⟩
        simpa [List.getD_cons_zero] using h4
      · refine Or.inr ⟨by omega, by omega, h3, ?_, rfl, rfl⟩
        have hsub : j - i = (j - (i + 1)) + 1 := by omega
        rw [List.map_cons, hsub, List.getD_cons_succ] at h4
        exact h4

theorem afadeOut_mem_rec (n j : ℕ) (inp : Label) (st d : ℚ) (cs : List Clip) : ∀ i,
    Node.afade inp false st d (Label.afout j) ∈ fadeNodesRec n i cs ↔
      (i ≤ j ∧ j < i + cs.length ∧ j < n - 1 ∧
        st = max 0 ((cs.map effectiveDuration).getD (j - i) 0 - fadeDuration) ∧
        d = fadeDuration ∧
        inp = (if 0 < j then Label.afin j else Label.a j)) := by
  induction cs with
  | nil =>
    intro i
    simp only [fadeNodesRec, List.not_mem_nil, false_iff, List.length_nil]
    rintro ⟨h1, h2, _⟩
    omega
  | cons c rest ih =>
    intro i
    rw [fadeNodesRec_split, List.mem_append, afadeOut_mem_block, ih (i + 1)]
    simp only [List.length_cons]
    constructor
    · rintro (⟨h1, rfl, rfl, rfl, rfl⟩ | ⟨h1, h2, h3, h4, h5, h6⟩)
      · refine ⟨le_refl _, by omega, h1, ?_, rfl, rfl⟩
        simp [List.getD_cons_zero]
      · refine ⟨by omega, by omega, h3, ?_, h5, h6⟩
        have hsub : j - i = (j - (i + 1)) + 1 := by omega
        rw [List.map_cons, hsub, List.getD_cons_succ]
        exact h4
    · rintro ⟨h1, h2, h3, h4, rfl, rfl⟩
      by_cases hji : j = i
      · subst hji
        refine Or.inl ⟨h3, rfl, ?_, rfl, rfl⟩
        simpa [List.getD_cons_zero] using h4
      · refine Or.inr ⟨by omega, by omega, h3, ?_, rfl, rfl⟩
        have hsub : j - i = (j - (i + 1)) + 1 := by omega
        rw [List.map_cons, hsub, List.getD_cons_succ] at h4
        exact h4

theorem normNodes_no_fade (ao : AudioOption) (w h : ℕ) (cs : List Clip) :
    ∀ i nd, nd ∈ normNodes ao w h i cs → isFadeNode nd = false := by
  induction cs with
  | nil => intro i nd hmem; simp [normNodes] at hmem
  | cons c rest ih =>
    intro i nd hmem
    have hsplit : normNodes ao w h i (c :: rest) =
        Node.videoChain i (startOf c) (endOf c) w h (.v i) :: audioNodeFor ao i c ::
          normNodes ao w h (i + 1) rest := by
      simp [normNodes, normClipNodes]
    rw [hsplit] at hmem
    rcases List.mem_cons.mp hmem with h1 | hmem
    · subst h1; rfl
    · rcases List.mem_cons.mp hmem with h1 | hmem
      · subst h1
        cases hA : c.hasAudio <;> cases ao <;> by_cases hi : 0 < i <;>
          simp [audioNodeFor, hA, hi, isFadeNode]
      · exact ih (i + 1) nd hmem

theorem overlay_no_fade (wm : Option String) :
    ∀ nd ∈ (overlaySection wm).1, isFadeNode nd = false := by
  intro nd hmem
  cases wm with
  | none => simp [overlaySection] at hmem
  | some s =>
    by_cases hw : jsTrim s = ""
    · simp [overlaySection, hw] at hmem
    · simp [overlaySection, hw] at hmem
      subst hmem; rfl

theorem fade_plan_mem (clips : List Clip) (w h : ℕ) (ao : AudioOption)
    (wm : Option String) (hn : 1 < clips.length) (nd : Node)
    (hf : isFadeNode nd = true) :
    nd ∈ (buildFilterGraph clips w h ao .fade wm).nodes ↔
      nd ∈ fadeNodesRec clips.length 0 clips := by
  have heq : joinSection clips .fade = fadeNodesRec clips.length 0 clips ++
      [Node.concat (fadedPairs clips.length) clips.length .outv .outa] := by
    simp only [joinSection, true_and]
    rw [if_pos hn]
  show nd ∈ (normNodes ao w h 0 clips ++ joinSection clips .fade) ++
    (overlaySection wm).1 ↔ _
  rw [heq]
  constructor
  · intro hmem
    rcases List.mem_append.mp hmem with hmem | hmem
    · rcases List.mem_append.mp hmem with hmem | hmem
      · rw [normNodes_no_fade ao w h clips 0 nd hmem] at hf
        exact absurd hf (by simp)
      · rcases List.mem_append.mp hmem with hmem | hmem
        · exact hmem
        · simp only [List.mem_singleton] at hmem
          subst hmem
          simp [isFadeNode] at hf
    · rw [overlay_no_fade wm nd hmem] at hf
      exact absurd hf (by simp)
  · intro hmem
    exact List.mem_append_left _ (List.mem_append_right _ (List.mem_append_left _ hmem))

/-- C6: under the fade strategy with more than one clip, clip `j` receives a
video/audio fade-in (duration `fadeDuration`, starting at 0, reading its
normalized labels) exactly when `j > 0`, and a video/audio fade-out (duration
`fadeDuration`, starting at `max 0 (effectiveDuration_j - fadeDuration)`, so
ending at the clip's effective duration) exactly when `j < n - 1`; the faded
pairs are then concatenated in clip order by a single concat node over all
`n` pairs, and the nominal total output duration is the plain sum of the
effective durations, unchanged. -/
theorem fade_joiner (clips : List Clip) (w h : ℕ) (ao : AudioOption)
    (wm : Option String) (j : ℕ) (inp : Label) (st d : ℚ)
    (hn : 1 < clips.length) :
    (Node.vfade inp true st d (Label.vfin j) ∈
        (buildFilterGraph clips w h ao .fade wm).nodes ↔
      (0 < j ∧ j < clips.length ∧ inp = Label.v j ∧ st = 0 ∧ d = fadeDuration)) ∧
    (Node.afade inp true st d (Label.afin j) ∈
        (buildFilterGraph clips w h ao .fade wm).nodes ↔
      (0 < j ∧ j < clips.length ∧ inp = Label.a j ∧ st = 0 ∧ d = fadeDuration)) ∧
    (Node.vfade inp false st d (Label.vfout j) ∈
        (buildFilterGraph clips w h ao .fade wm).nodes ↔
      (j < clips.length - 1 ∧
        st = max 0 ((clips.map effectiveDuration).getD j 0 - fadeDuration) ∧
        d = fadeDuration ∧
        inp = (if 0 < j then Label.vfin j else Label.v j))) ∧
    (Node.afade inp false st d (Label.afout j) ∈
        (buildFilterGraph clips w h ao .fade wm).nodes ↔
      (j < clips.length - 1 ∧
        st = max 0 ((clips.map effectiveDuration).getD j 0 - fadeDuration) ∧
        d = fadeDuration ∧
        inp = (if 0 < j then Label.afin j else Label.a j))) ∧
    Node.concat (fadedPairs clips.length) clips.length .outv .outa ∈
      (buildFilterGraph clips w h ao .fade wm).nodes ∧
    totalDuration clips = (clips.map effectiveDuration).sum := by
  have heq : joinSection clips .fade = fadeNodesRec clips.length 0 clips ++
      [Node.concat (fadedPairs clips.length) clips.length .outv .outa] := by
    simp only [joinSection, true_and]
    rw [if_pos hn]
  refine ⟨?_, ?_, ?_, ?_, ?_, rfl⟩
  · rw [fade_plan_mem clips w h ao wm hn
        (Node.vfade inp true st d (Label.vfin j)) rfl,
      vfadeIn_mem_rec clips.length j inp st d clips 0]
    simp only [Nat.zero_le, true_and, Nat.zero_add]
  · rw [fade_plan_mem clips w h ao wm hn
        (Node.afade inp true st d (Label.afin j)) rfl,
      afadeIn_mem_rec clips.length j inp st d clips 0]
    simp only [Nat.zero_le, true_and, Nat.zero_add]
  · rw [fade_plan_mem clips w h ao wm hn
        (Node.vfade inp false st d (Label.vfout j)) rfl,
      vfadeOut_mem_rec clips.length j inp st d clips 0]
    simp only [Nat.zero_le, true_and, Nat.zero_add, Nat.sub_zero]
    constructor
    · rintro ⟨h1, h2, h3, h4, h5⟩
      exact ⟨h2, h3, h4, h5⟩
    · rintro ⟨h1, h2, h3, h4⟩
      exact ⟨by omega, h1, h2, h3, h4⟩
  · rw [fade_plan_mem clips w h ao wm hn
        (Node.afade inp false st d (Label.afout j)) rfl,
      afadeOut_mem_rec clips.length j inp st d clips 0]
    simp only [Nat.zero_le, true_and, Nat.zero_add, Nat.sub_zero]
    constructor
    · rintro ⟨h1, h2, h3, h4, h5⟩
      exact ⟨h2, h3, h4, h5⟩
    · rintro ⟨h1, h2, h3, h4⟩
      exact ⟨by omega, h1, h2, h3, h4⟩
  · show Node.concat (fadedPairs clips.length) clips.length .outv .outa ∈
      (normNodes ao w h 0 clips ++ joinSection clips .fade) ++ (overlaySection wm).1
    rw [heq]
    exact List.mem_append_left _ (List.mem_append_right _
      (List.mem_append_right _ (by simp)))

theorem fade_joiner_witness :
    (1 : ℕ) < ([⟨.absent, .absent, 5, true⟩, ⟨.absent, .absent, 4, true⟩] : List Clip).length ∧
    Node.vfade (Label.v 1) true 0 fadeDuration (Label.vfin 1) ∈
      (buildFilterGraph [⟨.absent, .absent, 5, true⟩, ⟨.absent, .absent, 4, true⟩]
        1280 720 .keepAll .fade none).nodes :=
  ⟨by decide,
   (fade_joiner [⟨.absent, .absent, 5, true⟩, ⟨.absent, .absent, 4, true⟩]
      1280 720 .keepAll none 1 (Label.v 1) 0 fadeDuration (by decide)).1.mpr
     ⟨by decide, by decide, rfl, rfl, rfl⟩⟩

end VideoMerger
